import Mathlib

/-!
Verification of the MM-Flow flowchart editor's undo/redo core.

The repository contains two variants of the editing session:

* `src/unnamed/part_000` — a two-stack history (`historyRef` for undo,
  `redoRef` for redo) with mutation handlers `onNodesChange`,
  `onEdgesChange`, `onConnect`, `createNode`, `onNodeLabelChange`,
  and history operations `pushToHistory`, `handleUndo`, `handleRedo`.
  We embed it as the `EditorState` machine below.
* `src/src/App.tsx` — a single `history` array with a `historyIndex`
  cursor (`pushHistory`, `undo`, `redo`, `loadDiagram`).  We embed it
  as the `AppState` machine.

Lists model JS arrays.  Both machines use value semantics; a separate
heap-addressed machine (`HeapState`) models array reference identity
for the aliasing claims about history entries.  Coordinates are
modelled as integers: no verified property depends on numeric
properties of positions.  Node `data.onChangeLabel` (a function
reference re-attached on every update in `App.tsx`) carries no diagram
data and is outside the value model.
-/

/-- A diagram node.  In `part_000` nodes are
`{id, type: 'custom', position, data: {label, shape}}`; in `App.tsx`
the `type` is the shape-specific renderer name and `data` holds the
label.  Both are instances of this record. -/
structure DNode where
  id : String
  ntype : String
  x : Int
  y : Int
  label : String
  shape : String
deriving DecidableEq

/-- A diagram edge as built by `onConnect` in `part_000`:
`{id, source, sourceHandle, target, targetHandle, type: 'default',
markerEnd: {type: ArrowClosed, color}, style: {stroke, strokeWidth}}`. -/
structure DEdge where
  id : String
  source : String
  sourceHandle : Option String
  target : String
  targetHandle : Option String
  etype : String
  markerColor : String
  strokeColor : String
  strokeWidth : Nat
deriving DecidableEq

/-- One history entry: a snapshot of the node and edge sequences
(`{nodes: ..., edges: ...}` in both variants). -/
structure Snapshot where
  nodes : List DNode
  edges : List DEdge
deriving DecidableEq

/-- The connection payload delivered by the rendering surface to
`onConnect` (`source`/`target` are non-null asserted in the source;
handles may be null). -/
structure Connection where
  source : String
  sourceHandle : Option String
  target : String
  targetHandle : Option String
deriving DecidableEq

/-- The node shapes `createNode` accepts in `part_000`:
`'rectangle' | 'circle' | 'diamond'`. -/
inductive Shape where
  | rectangle
  | circle
  | diamond
deriving DecidableEq

/-- The TS string literal a `Shape` stands for. -/
def Shape.name : Shape → String
  | .rectangle => "rectangle"
  | .circle => "circle"
  | .diamond => "diamond"

/-- `s.charAt(0).toUpperCase() + s.slice(1)` from `createNode`'s
default label. -/
def capitalize (s : String) : String :=
  match s.toList with
  | [] => ""
  | c :: cs => String.mk (c.toUpper :: cs)

/-- A single change descriptor consumed by the library utility
`applyNodeChanges` (modelled from the `reactflow` package, which is
external to this repository): position updates and removals; other
variants (selection, dimensions) do not alter the data we track. -/
inductive NodeChange where
  | position (id : String) (x y : Int)
  | remove (id : String)
deriving DecidableEq

/-- A change descriptor for `applyEdgeChanges` (external library
utility); removal is the structural case. -/
inductive EdgeChange where
  | remove (id : String)
deriving DecidableEq

/-- Model of the external `applyNodeChanges` utility: apply each
change in order; a change whose id matches no node is silently
ignored. -/
def applyNodeChanges (cs : List NodeChange) (ns : List DNode) : List DNode :=
  cs.foldl
    (fun acc c =>
      match c with
      | .position i nx ny =>
          acc.map (fun n => if n.id = i then { n with x := nx, y := ny } else n)
      | .remove i => acc.filter (fun n => n.id ≠ i))
    ns

/-- Model of the external `applyEdgeChanges` utility. -/
def applyEdgeChanges (cs : List EdgeChange) (es : List DEdge) : List DEdge :=
  cs.foldl (fun acc c => match c with | .remove i => acc.filter (fun e => e.id ≠ i)) es

/-- The edge record `onConnect` constructs in `part_000`.  The fresh
`uuidv4()` id is generated externally, so it arrives here as the
`eid` payload. -/
def mkEdge (eid : String) (c : Connection) : DEdge :=
  { id := eid
    source := c.source
    sourceHandle := c.sourceHandle
    target := c.target
    targetHandle := c.targetHandle
    etype := "default"
    markerColor := "#003366"
    strokeColor := "#003366"
    strokeWidth := 2 }

/-- The node record `createNode` constructs in `part_000`: fresh
external `uuidv4()` id and random position arrive as payload; the
label defaults to the capitalized shape name. -/
def mkNode (nid : String) (sh : Shape) (nx ny : Int) : DNode :=
  { id := nid
    ntype := "custom"
    x := nx
    y := ny
    label := capitalize sh.name
    shape := sh.name }

/-- The full state of the `part_000` edit session: live nodes and
edges plus the two history stacks (`historyRef.current` and
`redoRef.current`).  JS pushes and pops at the array end; we keep the
most recent entry at the head of the list, which realizes the same
stack discipline. -/
structure EditorState where
  nodes : List DNode
  edges : List DEdge
  undoStack : List Snapshot
  redoStack : List Snapshot
deriving DecidableEq

/-- `pushToHistory` from `part_000`: push a deep copy of the current
live state onto the undo stack and clear the redo stack.  Deep copies
(`JSON.parse(JSON.stringify(...))`) are value-identical, which is what
a value-semantics embedding records. -/
def pushToHistory (s : EditorState) : EditorState :=
  { s with
    undoStack := Snapshot.mk s.nodes s.edges :: s.undoStack
    redoStack := [] }

/-- `handleUndo` from `part_000`: pop the undo stack; if an entry was
there, push the current live state onto the redo stack and adopt the
popped entry as the live state; otherwise do nothing. -/
def handleUndo (s : EditorState) : EditorState :=
  match s.undoStack with
  | [] => s
  | last :: rest =>
      { nodes := last.nodes
        edges := last.edges
        undoStack := rest
        redoStack := Snapshot.mk s.nodes s.edges :: s.redoStack }

/-- `handleRedo` from `part_000`: symmetric to `handleUndo` on the
redo stack. -/
def handleRedo (s : EditorState) : EditorState :=
  match s.redoStack with
  | [] => s
  | next :: rest =>
      { nodes := next.nodes
        edges := next.edges
        undoStack := Snapshot.mk s.nodes s.edges :: s.undoStack
        redoStack := rest }

/-- The user-initiated mutation events of the `part_000` session
(everything except undo/redo/export).  Externally generated values
(uuids, random positions) are event payload. -/
inductive Mut where
  | nodesChange (cs : List NodeChange)
  | edgesChange (cs : List EdgeChange)
  | connect (eid : String) (c : Connection)
  | addNode (sh : Shape) (nid : String) (nx ny : Int)
  | relabel (nid : String) (label : String)
deriving DecidableEq

/-- Dispatch of a mutation event in `part_000`: every handler first
calls `pushToHistory` and then computes the new live state
(`onNodesChange`, `onEdgesChange`, `onConnect`, `createNode`,
`onNodeLabelChange`). -/
def applyMut (m : Mut) (s : EditorState) : EditorState :=
  match m with
  | .nodesChange cs =>
      let t := pushToHistory s
      { t with nodes := applyNodeChanges cs t.nodes }
  | .edgesChange cs =>
      let t := pushToHistory s
      { t with edges := applyEdgeChanges cs t.edges }
  | .connect eid c =>
      let t := pushToHistory s
      { t with edges := t.edges ++ [mkEdge eid c] }
  | .addNode sh nid nx ny =>
      let t := pushToHistory s
      { t with nodes := t.nodes ++ [mkNode nid sh nx ny] }
  | .relabel nid lbl =>
      let t := pushToHistory s
      { t with
        nodes := t.nodes.map (fun n => if n.id = nid then { n with label := lbl } else n) }

/-- A sequence of mutation events applied in order. -/
def applyMuts (ms : List Mut) (s : EditorState) : EditorState :=
  ms.foldl (fun t m => applyMut m t) s

/-- The empty initial session of `part_000`: no nodes, no edges, both
stacks empty. -/
def initialEditor : EditorState :=
  { nodes := [], edges := [], undoStack := [], redoStack := [] }

/-- The state of the `App.tsx` session: live nodes/edges, the
`history` array of snapshots and the `historyIndex` cursor.  Entries
strictly before the cursor act as the undo stack and entries strictly
after it as the redo stack. -/
structure AppState where
  nodes : List DNode
  edges : List DEdge
  history : List Snapshot
  index : Nat
deriving DecidableEq

/-- The initial `App.tsx` session: empty live state and a single
all-empty history entry at index 0 (so undo is disabled until a
change occurs). -/
def initialApp : AppState :=
  { nodes := [], edges := [], history := [Snapshot.mk [] []], index := 0 }

/-- One user-initiated mutation in `App.tsx`.  Every mutation handler
(`onNodesChange`, `onEdgesChange`, `onConnect`, `onDrop`,
`handleLabelChange`) computes the post-mutation live state and calls
`pushHistory` on it, which slices the history at the cursor, appends a
deep copy of the new state and advances the cursor.  The computed
post-state is the `post` argument; quantifying over it covers all the
handlers. -/
def applyEvent (post : Snapshot) (s : AppState) : AppState :=
  { nodes := post.nodes
    edges := post.edges
    history := s.history.take (s.index + 1) ++ [post]
    index := s.index + 1 }

/-- A sequence of `App.tsx` mutations applied in order. -/
def applyEvents (ps : List Snapshot) (s : AppState) : AppState :=
  ps.foldl (fun t p => applyEvent p t) s

/-- `undo` from `App.tsx`: if the cursor is positive, step it back one
entry and adopt that entry as the live state; the history array itself
is not modified.  (The source also re-attaches the `onChangeLabel`
callback to each node, which carries no diagram data.) -/
def undoApp (s : AppState) : AppState :=
  if 0 < s.index then
    let st := s.history.getD (s.index - 1) (Snapshot.mk [] [])
    { s with nodes := st.nodes, edges := st.edges, index := s.index - 1 }
  else s

/-- `redo` from `App.tsx`: if the cursor is not at the last entry,
step it forward one entry and adopt that entry as the live state. -/
def redoApp (s : AppState) : AppState :=
  if s.index < s.history.length - 1 then
    let st := s.history.getD (s.index + 1) (Snapshot.mk [] [])
    { s with nodes := st.nodes, edges := st.edges, index := s.index + 1 }
  else s

/-- `loadDiagram` from `App.tsx`.  Reading and `JSON.parse`-ing the
file is external; `none` models input that fails to parse or lacks the
`nodes`/`edges` properties (the `catch` branch or the failed `if`, in
both of which nothing is touched), `some st` models a successfully
parsed diagram.  On success the live state is replaced and the history
is reset to a single deep-copied entry at index 0. -/
def loadDiagram (input : Option Snapshot) (s : AppState) : AppState :=
  match input with
  | none => s
  | some st =>
      { nodes := st.nodes
        edges := st.edges
        history := [Snapshot.mk st.nodes st.edges]
        index := 0 }

/-!
Heap-addressed model of the `App.tsx` session, used to reason about
reference identity (aliasing) of the JS arrays involved.  A heap is an
append-only list of array values; an address is an index into it.
Creating a new JS array (`applyNodeChanges` results, `.map`,
`[...xs, x]`, `JSON.parse(JSON.stringify(...))`) allocates a fresh
address; no operation in the source ever writes into an existing
array, so heap cells are never overwritten.  `setEdges(state.edges)`
in `undo`/`redo` installs a stored address directly, which is where
aliasing arises.
-/

/-- Heap-addressed `App.tsx` state: `heapN`/`heapE` are the allocated
node-array and edge-array values (address = position); `liveN`/`liveE`
are the addresses of the live arrays; `history` stores address pairs
(nodes, edges) for its entries. -/
structure HeapState where
  heapN : List (List DNode)
  heapE : List (List DEdge)
  liveN : Nat
  liveE : Nat
  history : List (Nat × Nat)
  index : Nat
deriving DecidableEq

/-- Initial heap state: the live `[]` arrays and the distinct `[]`
array literals inside the initial history entry. -/
def initialHeap : HeapState :=
  { heapN := [[], []]
    heapE := [[], []]
    liveN := 0
    liveE := 0
    history := [(1, 1)]
    index := 0 }

/-- The operations of the `App.tsx` session in the heap model. -/
inductive HOp where
  | mutateNodes (postN : List DNode)
  | mutateEdges (postE : List DEdge)
  | undo
  | redo
  | load (input : Option Snapshot)
deriving DecidableEq

/-- One step of the heap model.  A node mutation allocates the new
live node array and the two deep copies `pushHistory` makes (new
nodes, current edges); an edge mutation is symmetric.  `undo`/`redo`
allocate a fresh node array (the source maps over the stored nodes)
but install the stored entry's edge array address directly
(`setEdges(state.edges)`).  `load` allocates the parsed arrays and
their deep copies and resets the history. -/
def applyHOp (op : HOp) (s : HeapState) : HeapState :=
  match op with
  | .mutateNodes postN =>
      { heapN := s.heapN ++ [postN, postN]
        heapE := s.heapE ++ [s.heapE.getD s.liveE []]
        liveN := s.heapN.length
        liveE := s.liveE
        history := s.history.take (s.index + 1) ++ [(s.heapN.length + 1, s.heapE.length)]
        index := s.index + 1 }
  | .mutateEdges postE =>
      { heapN := s.heapN ++ [s.heapN.getD s.liveN []]
        heapE := s.heapE ++ [postE, postE]
        liveN := s.liveN
        liveE := s.heapE.length
        history := s.history.take (s.index + 1) ++ [(s.heapN.length, s.heapE.length + 1)]
        index := s.index + 1 }
  | .undo =>
      if 0 < s.index then
        let entry := s.history.getD (s.index - 1) (0, 0)
        { s with
          heapN := s.heapN ++ [s.heapN.getD entry.1 []]
          liveN := s.heapN.length
          liveE := entry.2
          index := s.index - 1 }
      else s
  | .redo =>
      if s.index < s.history.length - 1 then
        let entry := s.history.getD (s.index + 1) (0, 0)
        { s with
          heapN := s.heapN ++ [s.heapN.getD entry.1 []]
          liveN := s.heapN.length
          liveE := entry.2
          index := s.index + 1 }
      else s
  | .load none => s
  | .load (some st) =>
      { heapN := s.heapN ++ [st.nodes, st.nodes]
        heapE := s.heapE ++ [st.edges, st.edges]
        liveN := s.heapN.length
        liveE := s.heapE.length
        history := [(s.heapN.length + 1, s.heapE.length + 1)]
        index := 0 }

/-- A sequence of heap-model operations applied in order. -/
def applyHOps (ops : List HOp) (s : HeapState) : HeapState :=
  ops.foldl (fun t op => applyHOp op t) s

/-- The whitespace set of the JS `String.prototype.trim` builtin used
by `handleBlur` in `BaseShapeNode.tsx`: WhiteSpace (tab, VT, FF,
space, NBSP, Unicode space separators, BOM) and LineTerminator (LF,
CR, LS, PS) code points. -/
def isJsWhitespace (c : Char) : Bool :=
  c.toNat ∈ [0x9, 0xA, 0xB, 0xC, 0xD, 0x20, 0xA0, 0x1680,
    0x2000, 0x2001, 0x2002, 0x2003, 0x2004, 0x2005, 0x2006, 0x2007,
    0x2008, 0x2009, 0x200A, 0x2028, 0x2029, 0x202F, 0x205F, 0x3000, 0xFEFF]

/-- Model of the JS `trim()` builtin: remove leading and trailing
whitespace characters. -/
def jsTrim (s : String) : String :=
  let l := s.toList.dropWhile (fun c => isJsWhitespace c)
  String.mk ((l.reverse.dropWhile (fun c => isJsWhitespace c)).reverse)

/-- `handleBlur` from `BaseShapeNode.tsx`: the value handed to
`data.onChangeLabel` when in-place editing finishes is
`e.target.value.trim()`. -/
def handleBlurCommit (t : String) : String :=
  jsTrim t

/-- The heap state after one `onConnect`-style edge mutation followed
by one `undo`, starting from the initial `App.tsx` session.  Used to
examine aliasing between the live state and stored history entries. -/
def aliasDemoState : HeapState :=
  applyHOp HOp.undo
    (applyHOp (HOp.mutateEdges [mkEdge "e1" (Connection.mk "n1" none "n2" none)]) initialHeap)

/-- Relabelling with an id that matches no node in the list leaves the
list unchanged (the `map` in `onNodeLabelChange` fixes every
element). -/
theorem relabel_map_eq_of_absent (i l : String) :
    ∀ ns : List DNode, (∀ n ∈ ns, n.id ≠ i) →
      ns.map (fun n => if n.id = i then { n with label := l } else n) = ns := by
  intro ns h
  induction ns with
  | nil => rfl
  | cons a t ih =>
      simp only [List.map_cons]
      rw [if_neg (h a (by simp)), ih (fun n hn => h n (by simp [hn]))]

/-- C2: immediately after any user-initiated mutation other than
undo/redo, the redo stack is empty and a subsequent redo is a no-op —
in the two-stack session (`part_000`) and in the cursor-based session
(`App.tsx`), where the redo stack is the part of the history array
after the cursor. -/
theorem redo_cleared_on_mutation :
    ∀ (m : Mut) (s : EditorState) (p : Snapshot) (t : AppState),
      (applyMut m s).redoStack = []
      ∧ handleRedo (applyMut m s) = applyMut m s
      ∧ (applyEvent p t).history.drop ((applyEvent p t).index + 1) = []
      ∧ redoApp (applyEvent p t) = applyEvent p t := by
  intro m s p t
  refine ⟨?_, ?_, ?_, ?_⟩
  · cases m <;> rfl
  · cases m <;> rfl
  · apply List.drop_eq_nil_of_le
    simp [applyEvent, List.length_take]
  · have hcond : ¬ ((applyEvent p t).index < (applyEvent p t).history.length - 1) := by
      simp [applyEvent, List.length_take]
    simp [redoApp, hcond]

/-- C3 counterexample: connecting from the nonexistent source id
`missing-id` in the empty diagram does change the store — an edge is
appended, no validation occurs. -/
theorem connect_missing_id_cex :
    initialEditor.nodes = []
    ∧ (applyMut (Mut.connect "e1" (Connection.mk "missing-id" (some "h1") "n2" (some "h2")))
        initialEditor).edges ≠ initialEditor.edges := by
  decide

/-- C3 (amended): `onConnect` performs no existence check on the
source or target id: for every store and every connection payload it
appends exactly one new edge with the given endpoints and leaves the
node sequence unchanged; no error condition exists in the code. -/
theorem connect_appends_unconditionally :
    ∀ (eid : String) (c : Connection) (s : EditorState),
      (applyMut (Mut.connect eid c) s).edges = s.edges ++ [mkEdge eid c]
      ∧ (applyMut (Mut.connect eid c) s).nodes = s.nodes := by
  intro eid c s
  exact ⟨rfl, rfl⟩

/-- C6: undo with an empty undo stack and redo with an empty redo
stack are complete no-ops in both sessions (for `App.tsx`, the undo
stack is empty when the cursor is 0 and the redo stack is empty when
no history entry lies after the cursor). -/
theorem boundary_noop :
    ∀ (s : EditorState) (t : AppState),
      (s.undoStack = [] → handleUndo s = s)
      ∧ (s.redoStack = [] → handleRedo s = s)
      ∧ (t.index = 0 → undoApp t = t)
      ∧ (t.history.drop (t.index + 1) = [] → redoApp t = t) := by
  intro s t
  refine ⟨?_, ?_, ?_, ?_⟩
  · intro h; simp [handleUndo, h]
  · intro h; simp [handleRedo, h]
  · intro h; simp [undoApp, h]
  · intro h
    rw [List.drop_eq_nil_iff] at h
    have hcond : ¬ (t.index < t.history.length - 1) := by omega
    simp [redoApp, hcond]

/-- C6 witness: at the initial states both boundary no-ops fire. -/
theorem boundary_noop_witness :
    handleUndo initialEditor = initialEditor
    ∧ handleRedo initialEditor = initialEditor
    ∧ undoApp initialApp = initialApp
    ∧ redoApp initialApp = initialApp :=
  ⟨(boundary_noop initialEditor initialApp).1 rfl,
   (boundary_noop initialEditor initialApp).2.1 rfl,
   (boundary_noop initialEditor initialApp).2.2.1 rfl,
   (boundary_noop initialEditor initialApp).2.2.2 (by decide)⟩

/-- C7: a successful load replaces the live state with exactly the
loaded nodes and edges, resets the history to a single entry at cursor
0 (so a following undo is a no-op: all prior history is unreachable),
and a failed load leaves the whole session untouched. -/
theorem load_replaces_atomically :
    ∀ (t : AppState) (st : Snapshot),
      (loadDiagram (some st) t).nodes = st.nodes
      ∧ (loadDiagram (some st) t).edges = st.edges
      ∧ (loadDiagram (some st) t).history = [Snapshot.mk st.nodes st.edges]
      ∧ (loadDiagram (some st) t).index = 0
      ∧ undoApp (loadDiagram (some st) t) = loadDiagram (some st) t
      ∧ loadDiagram none t = t := by
  intro t st
  refine ⟨rfl, rfl, rfl, rfl, ?_, rfl⟩
  simp [undoApp, loadDiagram]

/-- C8: relabelling a nonexistent id is a silent no-op on the node
sequence; relabelling an existing node replaces its label verbatim
(any string, including the empty string) and leaves every other node
and all edges unchanged. -/
theorem relabel_spec :
    ∀ (s : EditorState) (i l : String),
      ((∀ n ∈ s.nodes, n.id ≠ i) → (applyMut (Mut.relabel i l) s).nodes = s.nodes)
      ∧ (applyMut (Mut.relabel i l) s).edges = s.edges
      ∧ (applyMut (Mut.relabel i l) s).nodes.length = s.nodes.length
      ∧ ∀ n ∈ s.nodes,
          (n.id = i → { n with label := l } ∈ (applyMut (Mut.relabel i l) s).nodes)
          ∧ (n.id ≠ i → n ∈ (applyMut (Mut.relabel i l) s).nodes) := by
  intro s i l
  refine ⟨?_, rfl, ?_, ?_⟩
  · intro h
    simpa [applyMut, pushToHistory] using relabel_map_eq_of_absent i l s.nodes h
  · simp [applyMut, pushToHistory]
  · intro n hn
    constructor
    · intro he
      simp only [applyMut, pushToHistory]
      exact List.mem_map.mpr ⟨n, hn, by rw [if_pos he]⟩
    · intro hne
      simp only [applyMut, pushToHistory]
      exact List.mem_map.mpr ⟨n, hn, by rw [if_neg hne]⟩

/-- C8 witness: relabelling the absent id `nonexistent` on a
one-node store returns the node sequence unchanged. -/
theorem relabel_spec_witness :
    (applyMut (Mut.relabel "nonexistent" "X")
      (EditorState.mk [DNode.mk "n1" "custom" 10 10 "Start" "rectangle"] [] [] [])).nodes
      = [DNode.mk "n1" "custom" 10 10 "Start" "rectangle"] :=
  (relabel_spec (EditorState.mk [DNode.mk "n1" "custom" 10 10 "Start" "rectangle"] [] [] [])
    "nonexistent" "X").1 (by decide)

/-- C9: a relabel whose id matches no node still pushes the
pre-mutation snapshot onto the undo stack and clears the redo stack,
while the live state is unchanged. -/
theorem noop_relabel_consumes_history :
    ∀ (s : EditorState) (i l : String),
      (∀ n ∈ s.nodes, n.id ≠ i) →
      (applyMut (Mut.relabel i l) s).undoStack = Snapshot.mk s.nodes s.edges :: s.undoStack
      ∧ (applyMut (Mut.relabel i l) s).redoStack = []
      ∧ (applyMut (Mut.relabel i l) s).nodes = s.nodes
      ∧ (applyMut (Mut.relabel i l) s).edges = s.edges := by
  intro s i l h
  refine ⟨rfl, rfl, ?_, rfl⟩
  simpa [applyMut, pushToHistory] using relabel_map_eq_of_absent i l s.nodes h

/-- C9 witness: with a pending redo entry, a relabel of the absent id
`ghost` clears the redo stack and pushes an undo entry. -/
theorem noop_relabel_consumes_history_witness :
    (applyMut (Mut.relabel "ghost" "X")
      (EditorState.mk [] [] [] [Snapshot.mk [] []])).redoStack = []
    ∧ (applyMut (Mut.relabel "ghost" "X")
      (EditorState.mk [] [] [] [Snapshot.mk [] []])).undoStack = [Snapshot.mk [] []] :=
  ⟨(noop_relabel_consumes_history (EditorState.mk [] [] [] [Snapshot.mk [] []]) "ghost" "X"
      (by decide)).2.1,
   (noop_relabel_consumes_history (EditorState.mk [] [] [] [Snapshot.mk [] []]) "ghost" "X"
      (by decide)).1⟩

/-- One undo followed by one redo restores the full two-stack session
whenever the undo stack is nonempty. -/
theorem redo_undo_editor (s : EditorState) (h : s.undoStack ≠ []) :
    handleRedo (handleUndo s) = s := by
  cases s with
  | mk ns es us rs =>
      cases us with
      | nil => exact absurd rfl h
      | cons u rest => simp [handleUndo, handleRedo]

/-- Every mutation event grows the undo stack by exactly one entry. -/
theorem undoStack_length_applyMut (m : Mut) (s : EditorState) :
    (applyMut m s).undoStack.length = s.undoStack.length + 1 := by
  cases m <;> simp [applyMut, pushToHistory]

/-- A sequence of mutation events grows the undo stack by its
length. -/
theorem undoStack_length_applyMuts :
    ∀ (ms : List Mut) (s : EditorState),
      (applyMuts ms s).undoStack.length = s.undoStack.length + ms.length := by
  intro ms
  induction ms with
  | nil => intro s; rfl
  | cons m ms ih =>
      intro s
      show (applyMuts ms (applyMut m s)).undoStack.length = _
      rw [ih (applyMut m s), undoStack_length_applyMut]
      simp only [List.length_cons]
      omega

/-- Undo on a nonempty undo stack shortens it by one. -/
theorem undoStack_length_handleUndo (s : EditorState) (h : s.undoStack ≠ []) :
    (handleUndo s).undoStack.length + 1 = s.undoStack.length := by
  cases s with
  | mk ns es us rs =>
      cases us with
      | nil => exact absurd rfl h
      | cons u rest => simp [handleUndo]

/-- k undos followed by k redos restore the two-stack session exactly,
whenever the undo stack holds at least k entries. -/
theorem round_trip_editor :
    ∀ (k : Nat) (s : EditorState), k ≤ s.undoStack.length →
      handleRedo^[k] (handleUndo^[k] s) = s := by
  intro k
  induction k with
  | zero => intro s _; rfl
  | succ k ih =>
      intro s hk
      have hne : s.undoStack ≠ [] := by
        intro hnil
        rw [hnil] at hk
        exact absurd hk (by simp)
      rw [Function.iterate_succ_apply', Function.iterate_succ_apply]
      have hlen := undoStack_length_handleUndo s hne
      rw [ih (handleUndo s) (by omega)]
      exact redo_undo_editor s hne

/-- One undo followed by one redo restores the cursor session exactly,
whenever the cursor is positive, in bounds, and the live state matches
the entry under the cursor (the reachable-state invariant). -/
theorem redo_undo_app (t : AppState) (h0 : 0 < t.index)
    (h1 : t.index < t.history.length)
    (h2 : t.history.getD t.index (Snapshot.mk [] []) = Snapshot.mk t.nodes t.edges) :
    redoApp (undoApp t) = t := by
  have hidx : t.index - 1 + 1 = t.index := Nat.succ_pred_eq_of_pos h0
  have hcond : t.index - 1 < t.history.length - 1 := by omega
  simp only [undoApp, if_pos h0]
  simp only [redoApp]
  rw [if_pos hcond, hidx, h2]

/-- k undos followed by k redos restore the cursor session exactly,
whenever the cursor is at least k, in bounds, and the live state
matches the entry under the cursor. -/
theorem round_trip_app :
    ∀ (k : Nat) (t : AppState), k ≤ t.index → t.index < t.history.length →
      t.history.getD t.index (Snapshot.mk [] []) = Snapshot.mk t.nodes t.edges →
      redoApp^[k] (undoApp^[k] t) = t := by
  intro k
  induction k with
  | zero => intro t _ _ _; rfl
  | succ k ih =>
      intro t hk h1 h2
      have h0 : 0 < t.index := by omega
      rw [Function.iterate_succ_apply', Function.iterate_succ_apply]
      have hu_index : (undoApp t).index = t.index - 1 := by simp [undoApp, h0]
      have hu_hist : (undoApp t).history = t.history := by simp [undoApp, h0]
      have hu_inv : (undoApp t).history.getD (undoApp t).index (Snapshot.mk [] [])
          = Snapshot.mk (undoApp t).nodes (undoApp t).edges := by
        simp [undoApp, h0]
      rw [ih (undoApp t) (by rw [hu_index]; omega) (by rw [hu_index, hu_hist]; omega) hu_inv]
      exact redo_undo_app t h0 h1 h2

/-- A mutation event preserves the reachable-state invariant of the
cursor session (cursor at the last entry, live state equal to the
entry under the cursor) and advances the cursor by one. -/
theorem applyEvent_inv (p : Snapshot) (t : AppState)
    (h1 : t.index + 1 = t.history.length) :
    (applyEvent p t).index + 1 = (applyEvent p t).history.length
    ∧ (applyEvent p t).history.getD (applyEvent p t).index (Snapshot.mk [] [])
        = Snapshot.mk (applyEvent p t).nodes (applyEvent p t).edges := by
  constructor
  · simp [applyEvent, List.length_take]
    omega
  · simp only [applyEvent]
    rw [h1, List.take_length]
    rw [List.getD_eq_getElem _ _ (by simp)]
    exact List.getElem_concat_length t.history p t.history.length rfl (by simp)

/-- A sequence of mutation events from a state satisfying the
reachable-state invariant lands in a state satisfying it, with the
cursor advanced by the number of events. -/
theorem applyEvents_inv :
    ∀ (ps : List Snapshot) (t : AppState),
      t.index + 1 = t.history.length →
      t.history.getD t.index (Snapshot.mk [] []) = Snapshot.mk t.nodes t.edges →
      (applyEvents ps t).index + 1 = (applyEvents ps t).history.length
      ∧ (applyEvents ps t).history.getD (applyEvents ps t).index (Snapshot.mk [] [])
          = Snapshot.mk (applyEvents ps t).nodes (applyEvents ps t).edges
      ∧ (applyEvents ps t).index = t.index + ps.length := by
  intro ps
  induction ps with
  | nil => intro t h1 h2; exact ⟨h1, h2, rfl⟩
  | cons p ps ih =>
      intro t h1 h2
      have he := applyEvent_inv p t h1
      have hrec := ih (applyEvent p t) he.1 he.2
      refine ⟨hrec.1, hrec.2.1, ?_⟩
      have : (applyEvent p t).index = t.index + 1 := rfl
      show (applyEvents ps (applyEvent p t)).index = _
      rw [hrec.2.2, this]
      simp [List.length_cons]
      omega

/-- C1 (amended): undo followed immediately by redo restores the
exact pre-undo session whenever undo actually performs a step (undo
stack nonempty in `part_000`; cursor positive in `App.tsx` under the
reachable-state invariant); and for any sequence of n mutations
applied from the empty diagram, n undos followed by n redos reproduce
the exact state after the last mutation, in both sessions.  The
restriction is forced: when the undo stack is empty but the redo
stack is not, undo is a no-op while redo still advances, so the pair
does not restore the pre-undo state. -/
theorem undo_redo_round_trip :
    (∀ s : EditorState, s.undoStack ≠ [] → handleRedo (handleUndo s) = s)
    ∧ (∀ ms : List Mut,
        handleRedo^[ms.length] (handleUndo^[ms.length] (applyMuts ms initialEditor))
          = applyMuts ms initialEditor)
    ∧ (∀ t : AppState, 0 < t.index → t.index < t.history.length →
        t.history.getD t.index (Snapshot.mk [] []) = Snapshot.mk t.nodes t.edges →
        redoApp (undoApp t) = t)
    ∧ (∀ ps : List Snapshot,
        redoApp^[ps.length] (undoApp^[ps.length] (applyEvents ps initialApp))
          = applyEvents ps initialApp) := by
  refine ⟨redo_undo_editor, ?_, redo_undo_app, ?_⟩
  · intro ms
    apply round_trip_editor
    rw [undoStack_length_applyMuts ms initialEditor]
    simp [initialEditor]
  · intro ps
    have hinv := applyEvents_inv ps initialApp rfl rfl
    apply round_trip_app
    · rw [hinv.2.2]
      simp [initialApp]
    · omega
    · exact hinv.2.1

/-- C1 counterexample: from the empty diagram, add one node, then
undo (undo stack now empty, redo stack nonempty).  From this reachable
state, undo is a no-op but redo still advances, so undo-then-redo does
not restore the state that existed before the undo call. -/
theorem undo_redo_round_trip_cex :
    handleRedo (handleUndo
        (handleUndo (applyMut (Mut.addNode Shape.rectangle "n1" 10 10) initialEditor)))
      ≠ handleUndo (applyMut (Mut.addNode Shape.rectangle "n1" 10 10) initialEditor) := by
  decide

/-- C1 witness: the amended round trip at concrete inputs — one
added node in the two-stack session, one mutation in the cursor
session. -/
theorem undo_redo_round_trip_witness :
    handleRedo (handleUndo (applyMut (Mut.addNode Shape.rectangle "n1" 10 10) initialEditor))
      = applyMut (Mut.addNode Shape.rectangle "n1" 10 10) initialEditor
    ∧ redoApp (undoApp (applyEvent (Snapshot.mk [] []) initialApp))
      = applyEvent (Snapshot.mk [] []) initialApp :=
  ⟨undo_redo_round_trip.1 _ (by decide),
   undo_redo_round_trip.2.2.1 _ (by decide) (by decide) (by decide)⟩

/-- C5: the entry pushed for a mutation is the pre-mutation store.
In the two-stack session, `pushToHistory` pushes a copy of the live
state as it stood before the mutation.  In the cursor session, where
the undo stack is the history region strictly before the cursor, the
entry that enters the undo region on a mutation is exactly the
pre-mutation live state (`App.tsx` physically appends the
post-mutation copy, but the entry that becomes undoable is the former
cursor entry, equal to the pre-mutation state on reachable states). -/
theorem push_captures_premutation_state :
    ∀ (m : Mut) (s : EditorState) (p : Snapshot) (t : AppState),
      (applyMut m s).undoStack = Snapshot.mk s.nodes s.edges :: s.undoStack
      ∧ (t.index < t.history.length →
          t.history.getD t.index (Snapshot.mk [] []) = Snapshot.mk t.nodes t.edges →
          (applyEvent p t).history.take (applyEvent p t).index
            = t.history.take t.index ++ [Snapshot.mk t.nodes t.edges]) := by
  intro m s p t
  constructor
  · cases m <;> rfl
  · intro h1 h2
    have hlen : (t.history.take (t.index + 1)).length = t.index + 1 := by
      rw [List.length_take]
      omega
    show (t.history.take (t.index + 1) ++ [p]).take (t.index + 1) = _
    rw [List.take_left' hlen, List.take_succ]
    have hg : t.history[t.index]? = some (Snapshot.mk t.nodes t.edges) := by
      rw [List.getElem?_eq_getElem h1]
      exact congrArg some (((List.getD_eq_getElem t.history (Snapshot.mk [] []) h1).symm).trans h2)
    rw [hg]
    rfl

/-- C5 witness: at the initial cursor session, a mutation makes the
initial empty snapshot the sole undoable entry, which is the
pre-mutation live state. -/
theorem push_captures_premutation_state_witness :
    (applyMut (Mut.relabel "a" "b") initialEditor).undoStack = [Snapshot.mk [] []]
    ∧ (applyEvent (Snapshot.mk [] []) initialApp).history.take
        (applyEvent (Snapshot.mk [] []) initialApp).index
      = initialApp.history.take initialApp.index ++ [Snapshot.mk [] []] :=
  ⟨(push_captures_premutation_state (Mut.relabel "a" "b") initialEditor
      (Snapshot.mk [] []) initialApp).1,
   (push_captures_premutation_state (Mut.relabel "a" "b") initialEditor
      (Snapshot.mk [] []) initialApp).2 (by decide) (by decide)⟩

/-- Every heap-model operation only appends to the node-array heap. -/
theorem applyHOp_heapN_extends (op : HOp) (s : HeapState) :
    ∃ tl, (applyHOp op s).heapN = s.heapN ++ tl := by
  cases op with
  | mutateNodes pN => exact ⟨[pN, pN], rfl⟩
  | mutateEdges pE => exact ⟨[s.heapN.getD s.liveN []], rfl⟩
  | undo =>
      by_cases h : 0 < s.index
      · exact ⟨[s.heapN.getD (s.history.getD (s.index - 1) (0, 0)).1 []], by simp [applyHOp, h]⟩
      · exact ⟨[], by simp [applyHOp, h]⟩
  | redo =>
      by_cases h : s.index < s.history.length - 1
      · exact ⟨[s.heapN.getD (s.history.getD (s.index + 1) (0, 0)).1 []], by simp [applyHOp, h]⟩
      · exact ⟨[], by simp [applyHOp, h]⟩
  | load input =>
      cases input with
      | none => exact ⟨[], by simp [applyHOp]⟩
      | some st => exact ⟨[st.nodes, st.nodes], rfl⟩

/-- Every heap-model operation only appends to the edge-array heap. -/
theorem applyHOp_heapE_extends (op : HOp) (s : HeapState) :
    ∃ tl, (applyHOp op s).heapE = s.heapE ++ tl := by
  cases op with
  | mutateNodes pN => exact ⟨[s.heapE.getD s.liveE []], rfl⟩
  | mutateEdges pE => exact ⟨[pE, pE], rfl⟩
  | undo =>
      by_cases h : 0 < s.index
      · exact ⟨[], by simp [applyHOp, h]⟩
      · exact ⟨[], by simp [applyHOp, h]⟩
  | redo =>
      by_cases h : s.index < s.history.length - 1
      · exact ⟨[], by simp [applyHOp, h]⟩
      · exact ⟨[], by simp [applyHOp, h]⟩
  | load input =>
      cases input with
      | none => exact ⟨[], by simp [applyHOp]⟩
      | some st => exact ⟨[st.edges, st.edges], rfl⟩

/-- A single operation preserves the value stored at every existing
node-array address. -/
theorem applyHOp_heapN_getD (op : HOp) (s : HeapState) (a : Nat)
    (h : a < s.heapN.length) :
    (applyHOp op s).heapN.getD a [] = s.heapN.getD a [] := by
  obtain ⟨tl, htl⟩ := applyHOp_heapN_extends op s
  rw [htl]
  exact List.getD_append s.heapN tl [] a h

/-- A single operation preserves the value stored at every existing
edge-array address. -/
theorem applyHOp_heapE_getD (op : HOp) (s : HeapState) (a : Nat)
    (h : a < s.heapE.length) :
    (applyHOp op s).heapE.getD a [] = s.heapE.getD a [] := by
  obtain ⟨tl, htl⟩ := applyHOp_heapE_extends op s
  rw [htl]
  exact List.getD_append s.heapE tl [] a h

/-- C4 counterexample: after one edge mutation and one undo from the
initial session, the stored history entry at position 0 holds the very
address that is also the live edge array (`setEdges(state.edges)`
installs the stored array by reference), so that history entry is
aliased with the live Graph Store. -/
theorem undo_aliases_history_entry_cex :
    (aliasDemoState.history.getD 0 (0, 0)).2 = aliasDemoState.liveE
    ∧ aliasDemoState.history.length = 2
    ∧ aliasDemoState.index = 0 := by
  decide

/-- C4 (amended): entries pushed by a mutation are deep copies at
fresh addresses, but undo/redo install a stored entry's edge array
into the live state by reference, so a history entry can be aliased
with the live store.  What does hold: no operation ever writes into an
existing array — every mutation allocates — so the contents at every
already-allocated address, and hence the contents of every stored
history entry, are never altered by any later sequence of
operations. -/
theorem history_entries_never_altered :
    ∀ (ops : List HOp) (s : HeapState) (a : Nat),
      (a < s.heapN.length → (applyHOps ops s).heapN.getD a [] = s.heapN.getD a [])
      ∧ (a < s.heapE.length → (applyHOps ops s).heapE.getD a [] = s.heapE.getD a []) := by
  intro ops
  induction ops with
  | nil => exact fun s a => ⟨fun _ => rfl, fun _ => rfl⟩
  | cons op ops ih =>
      intro s a
      have hlenN : s.heapN.length ≤ (applyHOp op s).heapN.length := by
        obtain ⟨tl, htl⟩ := applyHOp_heapN_extends op s
        rw [htl, List.length_append]
        omega
      have hlenE : s.heapE.length ≤ (applyHOp op s).heapE.length := by
        obtain ⟨tl, htl⟩ := applyHOp_heapE_extends op s
        rw [htl, List.length_append]
        omega
      constructor
      · intro h
        show (applyHOps ops (applyHOp op s)).heapN.getD a [] = _
        rw [(ih (applyHOp op s) a).1 (by omega), applyHOp_heapN_getD op s a h]
      · intro h
        show (applyHOps ops (applyHOp op s)).heapE.getD a [] = _
        rw [(ih (applyHOp op s) a).2 (by omega), applyHOp_heapE_getD op s a h]

/-- C4 witness: the initial live edge array (address 0) holds the
same contents after an undo. -/
theorem history_entries_never_altered_witness :
    (applyHOps [HOp.undo] initialHeap).heapE.getD 0 [] = initialHeap.heapE.getD 0 [] :=
  (history_entries_never_altered [HOp.undo] initialHeap 0).2 (by decide)

/-- The first element surviving `dropWhile p` does not satisfy `p`. -/
theorem head_dropWhile_not (p : Char → Bool) :
    ∀ (l : List Char) (c : Char), (l.dropWhile p).head? = some c → p c = false := by
  intro l
  induction l with
  | nil => intro c h; simp [List.dropWhile] at h
  | cons a t ih =>
      intro c h
      cases hpa : p a with
      | true =>
          simp only [List.dropWhile_cons, hpa, if_pos] at h
          exact ih c h
      | false =>
          simp only [List.dropWhile_cons, hpa] at h
          simp at h
          rw [← h]
          exact hpa

/-- `dropWhile` removes only a prefix: when the result is nonempty its
last element is the last element of the input. -/
theorem getLast_dropWhile_eq (p : Char → Bool) :
    ∀ (l : List Char), l.dropWhile p ≠ [] → (l.dropWhile p).getLast? = l.getLast? := by
  intro l
  induction l with
  | nil => intro h; exact absurd rfl h
  | cons a t ih =>
      intro h
      cases hpa : p a with
      | false => simp [List.dropWhile_cons, hpa]
      | true =>
          simp only [List.dropWhile_cons, hpa, if_pos] at h ⊢
          have ht : t ≠ [] := by
            intro h0
            rw [h0] at h
            exact h rfl
          rw [ih h]
          cases t with
          | nil => exact absurd rfl ht
          | cons b ts => rw [List.getLast?_cons_cons]

/-- C10: the label committed when in-place editing loses focus is the
edited text with leading and trailing whitespace removed — it equals
`trim` of the input, it never begins or ends with a whitespace
character, and an all-whitespace input commits the empty string. -/
theorem blur_commits_trimmed_label :
    ∀ t : String,
      handleBlurCommit t = jsTrim t
      ∧ (∀ c, (handleBlurCommit t).toList.head? = some c → isJsWhitespace c = false)
      ∧ (∀ c, (handleBlurCommit t).toList.getLast? = some c → isJsWhitespace c = false)
      ∧ (t.toList.all isJsWhitespace = true → handleBlurCommit t = "") := by
  intro t
  refine ⟨rfl, ?_, ?_, ?_⟩
  · intro c hc
    have hc2 : (((t.toList.dropWhile fun c => isJsWhitespace c).reverse.dropWhile
        fun c => isJsWhitespace c).reverse).head? = some c := hc
    rw [List.head?_reverse] at hc2
    have hne : ((t.toList.dropWhile fun c => isJsWhitespace c).reverse.dropWhile
        fun c => isJsWhitespace c) ≠ [] := by
      intro h0
      rw [h0] at hc2
      simp at hc2
    rw [getLast_dropWhile_eq _ _ hne, List.getLast?_reverse] at hc2
    exact head_dropWhile_not _ _ c hc2
  · intro c hc
    have hc2 : (((t.toList.dropWhile fun c => isJsWhitespace c).reverse.dropWhile
        fun c => isJsWhitespace c).reverse).getLast? = some c := hc
    rw [List.getLast?_reverse] at hc2
    exact head_dropWhile_not _ _ c hc2
  · intro hall
    have hnil : t.toList.dropWhile (fun c => isJsWhitespace c) = [] :=
      List.dropWhile_eq_nil_iff.mpr (fun x hx => List.all_eq_true.mp hall x hx)
    show jsTrim t = ""
    rw [jsTrim, hnil]
    rfl

/-- C10 witness: a concrete edit of text with surrounding blanks
commits the trimmed label, and a blank-only edit commits the empty
string. -/
theorem blur_commits_trimmed_label_witness :
    handleBlurCommit "  start  " = jsTrim "  start  "
    ∧ handleBlurCommit "   " = "" :=
  ⟨(blur_commits_trimmed_label "  start  ").1,
   (blur_commits_trimmed_label "   ").2.2.2 (by decide)⟩
